import Mathlib

/-!
Verification of the in-memory ledger engine in `src/main.rs`.

The engine consumes an ordered stream of typed transactions (deposit,
withdrawal, dispute, resolve, chargeback) and maintains three maps:
a client-id-indexed account store (`ClientList`), an applied-transaction
ledger (`Transactions.valid`) and an open-dispute ledger
(`Transactions.disputes`).

The Rust code stores balances as IEEE-754 binary32 (`f32`) values and its
five handlers use only `+`, `-` and `>=` on them.  We therefore embed the
engine generically over a small arithmetic interface `Arith` and
instantiate it twice:

* `f32A` : a faithful model of binary32 (`F32` below), with
  round-to-nearest-even at 24 significand bits, gradual underflow,
  overflow to signed infinity, and NaN propagation;
* `ratA` : exact rational arithmetic, used to state idealized variants.

Each handler returns `Option` state: `none` models a Rust panic
(`Option::unwrap` on `None`), which aborts the whole run, and `some s'`
a normally completed handler call.
-/

namespace Engine

/-! ### The binary32 model

A finite `f32` value is an integer multiple of `2 ^ (-149)` (the smallest
subnormal).  We represent the finite value `n * 2 ^ (-149)` by the integer
`n` in the constructor `F32.fin n`.  Under this scaling:

* the subnormals and the smallest normal binade are exactly the `n` with
  `|n| < 2 ^ 24`;
* a larger value is representable iff `|n| = m * 2 ^ j` with
  `2 ^ 23 ≤ m < 2 ^ 24`, i.e. iff `2 ^ (k - 23) ∣ n` where
  `k = ⌊log₂ |n|⌋`;
* the largest finite value `(2 ^ 24 - 1) * 2 ^ 104` is the integer
  `(2 ^ 24 - 1) * 2 ^ 253`.

IEEE addition/subtraction round the exact result to nearest, ties to even,
overflowing to the correspondingly signed infinity.  Sums and differences
of multiples of `2 ^ (-149)` are again such multiples, so on (the scaled
representations of) representable values the integer computations below
are exact and the rounding below is exactly the IEEE rounding.  The model
identifies `-0.0` with `+0.0`; the engine never distinguishes them (it
only adds, subtracts and compares, and IEEE makes `-0.0 == 0.0`). -/

/-- Fuel-driven floor of `log₂`: `log2fuel f n` is `⌊log₂ n⌋` whenever
`1 ≤ n ≤ 2 ^ f` (structural recursion on the fuel, so that the kernel can
evaluate it). -/
def log2fuel : Nat → Nat → Nat
  | 0, _ => 0
  | f + 1, n => if n ≤ 1 then 0 else log2fuel f (n / 2) + 1

/-- `⌊log₂ n⌋` for `n ≥ 1` (and `0` at `0`): `n` itself is always enough
fuel. -/
def natLog2 (n : Nat) : Nat := log2fuel n n

/-- Round `m / 2 ^ sh` to the nearest integer, ties to even
(for `sh ≥ 1`). -/
def rshiftRNE (m sh : Nat) : Nat :=
  let q := m / 2 ^ sh
  let r := m % 2 ^ sh
  let half := 2 ^ (sh - 1)
  if r < half then q
  else if half < r then q + 1
  else if q % 2 = 0 then q else q + 1

/-- IEEE-754 binary32 values, with finite values held as scaled integers:
`fin n` denotes `n * 2 ^ (-149)`.  `inf true` is `-∞`, `inf false` is
`+∞`. -/
inductive F32 : Type
  | NaN : F32
  | inf (neg : Bool) : F32
  | fin (n : ℤ) : F32
deriving DecidableEq

/-- Scaled representation of the largest finite binary32,
`(2 ^ 24 - 1) * 2 ^ 104`. -/
def maxFinScaled : Nat := (2 ^ 24 - 1) * 2 ^ 253

/-- Round the nonnegative exact value `m * 2 ^ (-149)` to binary32
(round to nearest, ties to even; overflow to `+∞`).  Values below
`2 ^ 24 * 2 ^ (-149)` are subnormal or in the lowest normal binade and are
exact; above that the significand is cut to 24 bits. -/
def roundPosScaled (m : Nat) : F32 :=
  let k := natLog2 m
  if k < 24 then .fin (m : ℤ)
  else
    let sh := k - 23
    let m' := rshiftRNE m sh * 2 ^ sh
    if maxFinScaled < m' then .inf false else .fin (m' : ℤ)

/-- Round the exact value `n * 2 ^ (-149)` to binary32.  Rounding to
nearest-even is symmetric under negation. -/
def roundScaled (n : ℤ) : F32 :=
  if n < 0 then
    match roundPosScaled n.natAbs with
    | .inf _ => .inf true
    | .fin v => .fin (-v)
    | .NaN => .NaN
  else
    roundPosScaled n.toNat

/-- binary32 addition: NaN propagates, `∞ + (-∞) = NaN`, finite addition
is the exact sum rounded. -/
def F32.add : F32 → F32 → F32
  | .NaN, _ => .NaN
  | _, .NaN => .NaN
  | .inf s1, .inf s2 => if s1 = s2 then .inf s1 else .NaN
  | .inf s, .fin _ => .inf s
  | .fin _, .inf s => .inf s
  | .fin a, .fin b => roundScaled (a + b)

/-- binary32 subtraction: NaN propagates, `∞ - ∞ = NaN`, finite
subtraction is the exact difference rounded. -/
def F32.sub : F32 → F32 → F32
  | .NaN, _ => .NaN
  | _, .NaN => .NaN
  | .inf s1, .inf s2 => if s1 = s2 then .NaN else .inf s1
  | .inf s, .fin _ => .inf s
  | .fin _, .inf s => .inf (!s)
  | .fin a, .fin b => roundScaled (a - b)

/-- binary32 `>=`: false whenever either operand is NaN, otherwise the
value order with `-∞` at the bottom and `+∞` at the top. -/
def F32.ge : F32 → F32 → Bool
  | .NaN, _ => false
  | _, .NaN => false
  | .inf s1, .inf s2 => !s1 || s2
  | .inf s, .fin _ => !s
  | .fin _, .inf s => s
  | .fin a, .fin b => decide (b ≤ a)

/-- The `f32` literal `0.0`. -/
def F32.zero : F32 := .fin 0

/-- The `f32` value of a small integer literal (e.g. the amounts `5.0`,
`3.0`, `10.0` of the spec scenarios): its exact value rounded. -/
def F32.ofInt (i : ℤ) : F32 := roundScaled (i * 2 ^ 149)

/-! ### The engine, generic over the balance arithmetic -/

/-- The arithmetic interface the five handlers use on the balance type:
literal zero, `+`, `-` and the boolean comparison `>=`. -/
structure Arith (α : Type) where
  zero : α
  add : α → α → α
  sub : α → α → α
  ge : α → α → Bool

/-- The handlers instantiated with the binary32 arithmetic of the Rust
code. -/
def f32A : Arith F32 := ⟨F32.zero, F32.add, F32.sub, F32.ge⟩

/-- The handlers instantiated with exact rational arithmetic (the
idealized engine). -/
def ratA : Arith ℚ := ⟨0, (· + ·), (· - ·), fun a b => decide (b ≤ a)⟩

/-- The five transaction types (`enum TransactionType`). -/
inductive TransactionType : Type
  | Deposit
  | Withdrawal
  | Dispute
  | Resolve
  | Chargeback
deriving DecidableEq

/-- A transaction record (`struct Transaction`): type, client id
(`u16`), transaction id (`u32`), and optional amount.  The ids are
modelled as `Nat`; the engine only uses them as map keys. -/
structure Transaction (α : Type) where
  tx_type : TransactionType
  client : Nat
  tx : Nat
  amount : Option α
deriving DecidableEq

/-- A client account (`struct Account`). -/
structure Account (α : Type) where
  available : α
  held : α
  total : α
  locked : Bool
deriving DecidableEq

/-- The account store (`struct ClientList`): client id to account.  The
`HashMap` is modelled as a function to `Option`. -/
structure ClientList (α : Type) where
  toFun : Nat → Option (Account α)

/-- The two ledgers (`struct Transactions`): `valid` is the
applied-transaction ledger (transaction id to the applied record),
`disputes` the open-dispute ledger (transaction id to the disputed
amount; the Rust `DisputeAmt` newtype is collapsed to the amount
itself). -/
structure Transactions (α : Type) where
  valid : Nat → Option (Transaction α)
  disputes : Nat → Option α

/-- The whole mutable state of the run: in Rust, the two locals
`transactions` and `clients` of `main`, passed by `&mut` to every
handler. -/
structure EngState (α : Type) where
  transactions : Transactions α
  clients : ClientList α

/-- `HashMap::insert` / `remove` on the function model: set the value at
one key. -/
def updFun {β : Type} (f : Nat → Option β) (k : Nat) (v : Option β) :
    Nat → Option β :=
  fun k' => if k' = k then v else f k'

/-- `fn handle_deposit`.  If the account exists: bail out when locked,
otherwise `available += amount; total += amount` (panic — `none` — when
the amount is absent, from `t.amount.unwrap()`).  If it does not exist:
create it with `available = total = amount` (again unwrap panics on a
missing amount).  In both non-locked paths the record is inserted into
the applied-transaction ledger. -/
def handle_deposit {α : Type} (A : Arith α) (t : Transaction α)
    (s : EngState α) : Option (EngState α) :=
  match s.clients.toFun t.client with
  | some client_acc =>
    if client_acc.locked then some s
    else
      match t.amount with
      | none => none
      | some amt =>
        let acc' : Account α :=
          { client_acc with
            available := A.add client_acc.available amt
            total := A.add client_acc.total amt }
        some { transactions :=
                 { s.transactions with
                   valid := updFun s.transactions.valid t.tx (some t) }
               clients := ⟨updFun s.clients.toFun t.client (some acc')⟩ }
  | none =>
    match t.amount with
    | none => none
    | some amt =>
      let open_new_acc : Account α :=
        { available := amt, held := A.zero, total := amt, locked := false }
      some { transactions :=
               { s.transactions with
                 valid := updFun s.transactions.valid t.tx (some t) }
             clients := ⟨updFun s.clients.toFun t.client (some open_new_acc)⟩ }

/-- `fn handle_withdrawal`.  Missing account: silently discard.  Locked:
silently discard.  Then `t.amount.unwrap()` (panic when absent), and only
when `available >= amount` mutate and record the transaction; otherwise
silently discard (in particular the record is NOT added to the
applied-transaction ledger). -/
def handle_withdrawal {α : Type} (A : Arith α) (t : Transaction α)
    (s : EngState α) : Option (EngState α) :=
  match s.clients.toFun t.client with
  | none => some s
  | some client_acc =>
    if client_acc.locked then some s
    else
      match t.amount with
      | none => none
      | some amt =>
        if A.ge client_acc.available amt then
          some { transactions :=
                   { s.transactions with
                     valid := updFun s.transactions.valid t.tx (some t) }
                 clients :=
                   ⟨updFun s.clients.toFun t.client
                     (some { client_acc with
                             available := A.sub client_acc.available amt
                             total := A.sub client_acc.total amt })⟩ }
        else some s

/-- `fn handle_dispute`.  Look the referenced id up in the
applied-transaction ledger, then look up the account of the DISPUTE
record's own `client` field (no check against the applied record's
client); bail out silently when either lookup fails or the account is
locked.  Otherwise move the APPLIED record's amount
(`past_tx.amount.unwrap()`, panic if that stored record has no amount)
from available to held and insert the open-dispute entry. -/
def handle_dispute {α : Type} (A : Arith α) (t : Transaction α)
    (s : EngState α) : Option (EngState α) :=
  match s.transactions.valid t.tx with
  | none => some s
  | some past_tx =>
    match s.clients.toFun t.client with
    | none => some s
    | some client_acc =>
      if client_acc.locked then some s
      else
        match past_tx.amount with
        | none => none
        | some amt =>
          some { transactions :=
                   { s.transactions with
                     disputes := updFun s.transactions.disputes t.tx (some amt) }
                 clients :=
                   ⟨updFun s.clients.toFun t.client
                     (some { client_acc with
                             available := A.sub client_acc.available amt
                             held := A.add client_acc.held amt })⟩ }

/-- `fn handle_resolve`.  Look the id up in the open-dispute ledger and
the account of the record's `client` field; bail out silently when either
fails or the account is locked.  Otherwise move the disputed amount back
from held to available and remove the open-dispute entry (the Rust
`remove(..).unwrap()` cannot panic there: the entry was just found). -/
def handle_resolve {α : Type} (A : Arith α) (t : Transaction α)
    (s : EngState α) : Option (EngState α) :=
  match s.transactions.disputes t.tx with
  | none => some s
  | some past_dispute =>
    match s.clients.toFun t.client with
    | none => some s
    | some client_acc =>
      if client_acc.locked then some s
      else
        some { transactions :=
                 { s.transactions with
                   disputes := updFun s.transactions.disputes t.tx none }
               clients :=
                 ⟨updFun s.clients.toFun t.client
                   (some { client_acc with
                           available := A.add client_acc.available past_dispute
                           held := A.sub client_acc.held past_dispute })⟩ }

/-- `fn handle_chargeback`.  Like resolve on the lookups; on success
`held -= amount; total -= amount` (available untouched), the account is
locked, and the open-dispute entry is removed. -/
def handle_chargeback {α : Type} (A : Arith α) (t : Transaction α)
    (s : EngState α) : Option (EngState α) :=
  match s.transactions.disputes t.tx with
  | none => some s
  | some past_dispute =>
    match s.clients.toFun t.client with
    | none => some s
    | some client_acc =>
      if client_acc.locked then some s
      else
        some { transactions :=
                 { s.transactions with
                   disputes := updFun s.transactions.disputes t.tx none }
               clients :=
                 ⟨updFun s.clients.toFun t.client
                   (some { client_acc with
                           held := A.sub client_acc.held past_dispute
                           total := A.sub client_acc.total past_dispute
                           locked := true })⟩ }

/-- The dispatch on `t.tx_type` in `parse_csv`'s processing loop. -/
def step {α : Type} (A : Arith α) (t : Transaction α) (s : EngState α) :
    Option (EngState α) :=
  match t.tx_type with
  | .Deposit => handle_deposit A t s
  | .Withdrawal => handle_withdrawal A t s
  | .Dispute => handle_dispute A t s
  | .Resolve => handle_resolve A t s
  | .Chargeback => handle_chargeback A t s

/-- Process a list of records in order; a panic (`none`) aborts the
rest of the run. -/
def processList {α : Type} (A : Arith α) :
    List (Transaction α) → EngState α → Option (EngState α)
  | [], s => some s
  | t :: ts, s => (step A t s).bind (processList A ts)

/-- The empty initial state of `main`: all three maps empty. -/
def initState {α : Type} : EngState α :=
  ⟨⟨fun _ => none, fun _ => none⟩, ⟨fun _ => none⟩⟩

/-! ### Frame lemmas -/

/-- A single processed record touches no account other than the one named
by its own `client` field. -/
theorem step_clients_other {α : Type} {A : Arith α} {t : Transaction α}
    {s s' : EngState α} (hs : step A t s = some s') {c : Nat}
    (hc : c ≠ t.client) :
    s'.clients.toFun c = s.clients.toFun c := by
  obtain ⟨ty, cl, tx, amt⟩ := t
  simp only at hc
  cases ty <;>
    simp only [step, handle_deposit, handle_withdrawal, handle_dispute,
      handle_resolve, handle_chargeback] at hs <;>
    repeat' split at hs
  all_goals
    first
      | exact Option.noConfusion hs
      | (injection hs with h; subst h; simp [updFun, hc])

/-- Every handler checks `locked` before mutating anything: a record
naming a locked client leaves the whole state untouched. -/
theorem step_locked_eq {α : Type} {A : Arith α} {t : Transaction α}
    {s s' : EngState α} {acc : Account α}
    (hacc : s.clients.toFun t.client = some acc) (hlock : acc.locked = true)
    (hs : step A t s = some s') : s' = s := by
  obtain ⟨ty, cl, tx, amt⟩ := t
  simp only at hacc
  cases ty <;>
    simp only [step, handle_deposit, handle_withdrawal, handle_dispute,
      handle_resolve, handle_chargeback] at hs <;>
    repeat' split at hs
  all_goals
    first
      | exact Option.noConfusion hs
      | (injection hs with h; exact h.symm)
      | simp_all

/-- A locked account is completely frozen by any single record: its stored
value (all three balances and the flag) is unchanged. -/
theorem step_locked_frame {α : Type} {A : Arith α} {t : Transaction α}
    {s s' : EngState α} {c : Nat} {acc : Account α}
    (hs : step A t s = some s') (hacc : s.clients.toFun c = some acc)
    (hlock : acc.locked = true) :
    s'.clients.toFun c = some acc := by
  by_cases hc : c = t.client
  · subst hc
    rw [step_locked_eq hacc hlock hs]
    exact hacc
  · rw [step_clients_other hs hc]
    exact hacc

/-- A locked account is completely frozen along any further run. -/
theorem processList_locked_frame {α : Type} {A : Arith α}
    {ts : List (Transaction α)} {s s' : EngState α} {c : Nat}
    {acc : Account α}
    (hrun : processList A ts s = some s')
    (hacc : s.clients.toFun c = some acc) (hlock : acc.locked = true) :
    s'.clients.toFun c = some acc := by
  induction ts generalizing s with
  | nil => cases hrun; exact hacc
  | cons t ts ih =>
    simp only [processList, Option.bind_eq_some] at hrun
    obtain ⟨s1, hstep, hrest⟩ := hrun
    exact ih (by simpa using hrest) (step_locked_frame hstep hacc hlock)

/-- A step can only delete an open-dispute entry at key `k` through a
Resolve or Chargeback record whose `tx` field is `k`; every other record
leaves the entry present (a re-dispute merely overwrites it). -/
theorem step_disputes_isSome {α : Type} {A : Arith α} {t : Transaction α}
    {s s' : EngState α} (hs : step A t s = some s') {k : Nat}
    (hk : (s.transactions.disputes k).isSome = true)
    (hnot : ¬((t.tx_type = .Resolve ∨ t.tx_type = .Chargeback) ∧ t.tx = k)) :
    (s'.transactions.disputes k).isSome = true := by
  obtain ⟨ty, cl, tx, amt⟩ := t
  simp only at hnot
  cases ty <;>
    simp only [step, handle_deposit, handle_withdrawal, handle_dispute,
      handle_resolve, handle_chargeback] at hs <;>
    repeat' split at hs
  all_goals
    first
      | exact Option.noConfusion hs
      | (injection hs with hEq; subst hEq;
         by_cases hkt : k = tx <;> simp_all [updFun])

/-- The key-set inclusion `disputes ⊆ valid` between the two ledgers. -/
def DisputesSubValid {α : Type} (s : EngState α) : Prop :=
  ∀ k, (s.transactions.disputes k).isSome = true →
    (s.transactions.valid k).isSome = true

/-- One step preserves the ledger inclusion: open-dispute entries are
created only for ids found in the applied-transaction ledger, and
applied-ledger entries are never removed. -/
theorem step_disputes_sub_valid {α : Type} {A : Arith α}
    {t : Transaction α} {s s' : EngState α} (hs : step A t s = some s')
    (h : DisputesSubValid s) : DisputesSubValid s' := by
  obtain ⟨ty, cl, tx, amt⟩ := t
  cases ty <;>
    simp only [step, handle_deposit, handle_withdrawal, handle_dispute,
      handle_resolve, handle_chargeback] at hs <;>
    repeat' split at hs
  all_goals
    first
      | exact Option.noConfusion hs
      | (injection hs with hEq; subst hEq; intro k hk;
         first
           | exact h k hk
           | (by_cases hkt : k = tx <;>
               first
                 | (subst hkt; simp_all [updFun])
                 | (simp only [updFun, if_neg hkt] at hk ⊢; exact h k hk)))

/-- The ledger inclusion holds in every reachable state. -/
theorem processList_disputes_sub_valid {α : Type} {A : Arith α}
    {ts : List (Transaction α)} {s : EngState α}
    (hrun : processList A ts initState = some s) : DisputesSubValid s := by
  suffices hgen : ∀ (ts : List (Transaction α)) (s0 s1 : EngState α),
      DisputesSubValid s0 → processList A ts s0 = some s1 →
      DisputesSubValid s1 by
    exact hgen ts initState s (by intro k hk; simp [initState] at hk) hrun
  intro ts
  induction ts with
  | nil => intro s0 s1 h0 hrun1; cases hrun1; exact h0
  | cons t ts ih =>
    intro s0 s1 h0 hrun1
    simp only [processList, Option.bind_eq_some] at hrun1
    obtain ⟨sm, hstep, hrest⟩ := hrun1
    exact ih sm s1 (step_disputes_sub_valid hstep h0) (by simpa using hrest)

/-- Unfolding lemmas for the `ratA` arithmetic. -/
theorem ratA_zero : ratA.zero = 0 := rfl

theorem ratA_add (x y : ℚ) : ratA.add x y = x + y := rfl

theorem ratA_sub (x y : ℚ) : ratA.sub x y = x - y := rfl

/-- The per-account balance equation, in exact rational arithmetic. -/
def RatInv (s : EngState ℚ) : Prop :=
  ∀ c acc, s.clients.toFun c = some acc →
    acc.total = acc.available + acc.held

/-- Every handler, run in exact arithmetic, preserves the balance
equation `total = available + held` of every stored account. -/
theorem step_rat_inv {t : Transaction ℚ} {s s' : EngState ℚ}
    (hs : step ratA t s = some s') (h : RatInv s) : RatInv s' := by
  obtain ⟨ty, cl, tx, amt⟩ := t
  cases ty
  case Deposit =>
    simp only [step, handle_deposit] at hs
    cases hcl : s.clients.toFun cl with
    | none =>
      simp only [hcl] at hs
      cases amt with
      | none => exact Option.noConfusion hs
      | some a =>
        injection hs with hEq; subst hEq
        intro c acc hacc
        simp only [updFun] at hacc
        by_cases hcc : c = cl
        · rw [if_pos hcc] at hacc
          injection hacc with hA; subst hA
          show a = a + ratA.zero
          simp [ratA_zero]
        · rw [if_neg hcc] at hacc; exact h c acc hacc
    | some client_acc =>
      simp only [hcl] at hs
      by_cases hl : client_acc.locked = true
      · simp only [if_pos hl] at hs
        injection hs with hEq; rw [← hEq]; exact h
      · simp only [if_neg hl] at hs
        cases amt with
        | none => exact Option.noConfusion hs
        | some a =>
          injection hs with hEq; subst hEq
          intro c acc hacc
          simp only [updFun] at hacc
          by_cases hcc : c = cl
          · rw [if_pos hcc] at hacc
            injection hacc with hA; subst hA
            have hold := h cl client_acc hcl
            show client_acc.total + a = client_acc.available + a + client_acc.held
            linarith
          · rw [if_neg hcc] at hacc; exact h c acc hacc
  case Withdrawal =>
    simp only [step, handle_withdrawal] at hs
    cases hcl : s.clients.toFun cl with
    | none => simp only [hcl] at hs; injection hs with hEq; rw [← hEq]; exact h
    | some client_acc =>
      simp only [hcl] at hs
      by_cases hl : client_acc.locked = true
      · simp only [if_pos hl] at hs
        injection hs with hEq; rw [← hEq]; exact h
      · simp only [if_neg hl] at hs
        cases amt with
        | none => exact Option.noConfusion hs
        | some a =>
          by_cases hge : ratA.ge client_acc.available a = true
          · simp only [if_pos hge] at hs
            injection hs with hEq; subst hEq
            intro c acc hacc
            simp only [updFun] at hacc
            by_cases hcc : c = cl
            · rw [if_pos hcc] at hacc
              injection hacc with hA; subst hA
              have hold := h cl client_acc hcl
              show client_acc.total - a = client_acc.available - a + client_acc.held
              linarith
            · rw [if_neg hcc] at hacc; exact h c acc hacc
          · simp only [if_neg hge] at hs
            injection hs with hEq; rw [← hEq]; exact h
  case Dispute =>
    simp only [step, handle_dispute] at hs
    cases hpt : s.transactions.valid tx with
    | none => simp only [hpt] at hs; injection hs with hEq; rw [← hEq]; exact h
    | some past_tx =>
      simp only [hpt] at hs
      cases hcl : s.clients.toFun cl with
      | none => simp only [hcl] at hs; injection hs with hEq; rw [← hEq]; exact h
      | some client_acc =>
        simp only [hcl] at hs
        by_cases hl : client_acc.locked = true
        · simp only [if_pos hl] at hs
          injection hs with hEq; rw [← hEq]; exact h
        · simp only [if_neg hl] at hs
          cases hpa : past_tx.amount with
          | none => simp only [hpa] at hs; exact Option.noConfusion hs
          | some a =>
            simp only [hpa] at hs
            injection hs with hEq; subst hEq
            intro c acc hacc
            simp only [updFun] at hacc
            by_cases hcc : c = cl
            · rw [if_pos hcc] at hacc
              injection hacc with hA; subst hA
              have hold := h cl client_acc hcl
              show client_acc.total
                = client_acc.available - a + (client_acc.held + a)
              linarith
            · rw [if_neg hcc] at hacc; exact h c acc hacc
  case Resolve =>
    simp only [step, handle_resolve] at hs
    cases hpd : s.transactions.disputes tx with
    | none => simp only [hpd] at hs; injection hs with hEq; rw [← hEq]; exact h
    | some d =>
      simp only [hpd] at hs
      cases hcl : s.clients.toFun cl with
      | none => simp only [hcl] at hs; injection hs with hEq; rw [← hEq]; exact h
      | some client_acc =>
        simp only [hcl] at hs
        by_cases hl : client_acc.locked = true
        · simp only [if_pos hl] at hs
          injection hs with hEq; rw [← hEq]; exact h
        · simp only [if_neg hl] at hs
          injection hs with hEq; subst hEq
          intro c acc hacc
          simp only [updFun] at hacc
          by_cases hcc : c = cl
          · rw [if_pos hcc] at hacc
            injection hacc with hA; subst hA
            have hold := h cl client_acc hcl
            show client_acc.total
              = client_acc.available + d + (client_acc.held - d)
            linarith
          · rw [if_neg hcc] at hacc; exact h c acc hacc
  case Chargeback =>
    simp only [step, handle_chargeback] at hs
    cases hpd : s.transactions.disputes tx with
    | none => simp only [hpd] at hs; injection hs with hEq; rw [← hEq]; exact h
    | some d =>
      simp only [hpd] at hs
      cases hcl : s.clients.toFun cl with
      | none => simp only [hcl] at hs; injection hs with hEq; rw [← hEq]; exact h
      | some client_acc =>
        simp only [hcl] at hs
        by_cases hl : client_acc.locked = true
        · simp only [if_pos hl] at hs
          injection hs with hEq; rw [← hEq]; exact h
        · simp only [if_neg hl] at hs
          injection hs with hEq; subst hEq
          intro c acc hacc
          simp only [updFun] at hacc
          by_cases hcc : c = cl
          · rw [if_pos hcc] at hacc
            injection hacc with hA; subst hA
            have hold := h cl client_acc hcl
            show client_acc.total - d
              = client_acc.available + (client_acc.held - d)
            linarith
          · rw [if_neg hcc] at hacc; exact h c acc hacc

/-- The balance equation holds in every state reachable in exact
arithmetic. -/
theorem processList_rat_inv {ts : List (Transaction ℚ)} {s : EngState ℚ}
    (hrun : processList ratA ts initState = some s) : RatInv s := by
  suffices hgen : ∀ (ts : List (Transaction ℚ)) (s0 s1 : EngState ℚ),
      RatInv s0 → processList ratA ts s0 = some s1 → RatInv s1 by
    exact hgen ts initState s (by intro c acc hacc; simp [initState] at hacc)
      hrun
  intro ts
  induction ts with
  | nil => intro s0 s1 h0 hrun1; cases hrun1; exact h0
  | cons t ts ih =>
    intro s0 s1 h0 hrun1
    simp only [processList, Option.bind_eq_some] at hrun1
    obtain ⟨sm, hstep, hrest⟩ := hrun1
    exact ih sm s1 (step_rat_inv hstep h0) (by simpa using hrest)

/-! ### The claims -/

set_option maxRecDepth 1000000

/-- C1, counterexample to the claim as stated.  In the program's binary32
arithmetic, processing Deposit(client 1, tx 1, 16777216.0);
Dispute(client 1, tx 1); Deposit(client 1, tx 2, 1.0);
Deposit(client 1, tx 3, 1.0) yields account 1 with available = 2.0 and
held = 16777216.0 (= 2^24) but total = 16777216.0: each deposit of 1.0 is
added to available exactly but is rounded away in total
(fl(2^24 + 1) = 2^24 by ties-to-even), so after the last transaction
total differs from available + held — the f32 sum of available and held
is 16777218.0 — and `total == available + held` fails in this reachable
state. -/
theorem c1_counterexample :
    ((processList f32A
        [⟨.Deposit, 1, 1, some (F32.ofInt 16777216)⟩,
         ⟨.Dispute, 1, 1, none⟩,
         ⟨.Deposit, 1, 2, some (F32.ofInt 1)⟩,
         ⟨.Deposit, 1, 3, some (F32.ofInt 1)⟩] initState).map
        fun s => s.clients.toFun 1)
      = some (some ⟨F32.ofInt 2, F32.ofInt 16777216, F32.ofInt 16777216,
          false⟩)
    ∧ F32.add (F32.ofInt 2) (F32.ofInt 16777216) ≠ F32.ofInt 16777216 :=
  ⟨by decide, by decide⟩

/-- C1, amended: with balances computed in exact (rational) arithmetic
instead of f32, the equation `total = available + held` does hold for
every account in every reachable state, after every processed
transaction. -/
theorem c1_exact_invariant (ts : List (Transaction ℚ)) (s : EngState ℚ)
    (hrun : processList ratA ts initState = some s)
    (c : Nat) (acc : Account ℚ) (hacc : s.clients.toFun c = some acc) :
    acc.total = acc.available + acc.held :=
  processList_rat_inv hrun c acc hacc

/-- Concrete run used by the witness of `c1_exact_invariant`. -/
def c1wTx : Transaction ℚ := ⟨.Deposit, 1, 1, some 5⟩

/-- The account created by that run. -/
def c1wAcc : Account ℚ := ⟨5, 0, 5, false⟩

/-- The state reached by that run. -/
def c1wState : EngState ℚ :=
  ⟨⟨updFun (fun _ => none) 1 (some c1wTx), fun _ => none⟩,
   ⟨updFun (fun _ => none) 1 (some c1wAcc)⟩⟩

/-- Witness for `c1_exact_invariant` at a concrete input. -/
theorem c1_exact_invariant_witness :
    processList ratA [c1wTx] initState = some c1wState ∧
    c1wState.clients.toFun 1 = some c1wAcc ∧
    c1wAcc.total = c1wAcc.available + c1wAcc.held :=
  ⟨rfl, rfl, c1_exact_invariant [c1wTx] c1wState rfl 1 c1wAcc rfl⟩

/-- C2: once a client's account has `locked = true`, no subsequently
processed transaction of any type changes the account's available, held
or total, and locked never reverts to false: along any processed suffix
the stored account record — all three balances and the flag — stays
literally the same.  Stated for every state and every arithmetic
instance, so in particular for the program's binary32 arithmetic. -/
theorem c2_locked_frozen {α : Type} (A : Arith α) (s : EngState α)
    (c : Nat) (acc : Account α) (ts : List (Transaction α))
    (s' : EngState α) (hacc : s.clients.toFun c = some acc)
    (hlock : acc.locked = true) (hrun : processList A ts s = some s') :
    s'.clients.toFun c = some acc :=
  processList_locked_frame hrun hacc hlock

/-- A locked account used by the witness of `c2_locked_frozen`. -/
def c2wAcc : Account F32 := ⟨F32.ofInt 7, F32.ofInt 5, F32.ofInt 12, true⟩

/-- A state holding that locked account, an applied transaction and an
open dispute. -/
def c2wState : EngState F32 :=
  ⟨⟨updFun (fun _ => none) 1 (some ⟨.Deposit, 1, 1, some (F32.ofInt 5)⟩),
    updFun (fun _ => none) 1 (some (F32.ofInt 5))⟩,
   ⟨updFun (fun _ => none) 1 (some c2wAcc)⟩⟩

/-- One record of each of the five types, all naming the locked client. -/
def c2wTs : List (Transaction F32) :=
  [⟨.Deposit, 1, 2, some (F32.ofInt 3)⟩,
   ⟨.Withdrawal, 1, 3, some (F32.ofInt 1)⟩,
   ⟨.Dispute, 1, 1, none⟩,
   ⟨.Resolve, 1, 1, none⟩,
   ⟨.Chargeback, 1, 1, none⟩]

/-- Witness for `c2_locked_frozen` at a concrete input. -/
theorem c2_locked_frozen_witness :
    c2wState.clients.toFun 1 = some c2wAcc ∧ c2wAcc.locked = true ∧
    processList f32A c2wTs c2wState = some c2wState ∧
    c2wState.clients.toFun 1 = some c2wAcc :=
  ⟨rfl, rfl, rfl,
   c2_locked_frozen f32A c2wState 1 c2wAcc c2wTs c2wState rfl rfl rfl⟩

/-- C3: an accepted Dispute mutates the account named by the dispute
record's own `client` field — `available -= amount; held += amount` —
using the amount stored on the looked-up applied record, never an amount
carried by the dispute record itself (the dispute's `amount` field is
unconstrained and absent from the result), and with no check that the
dispute's client equals the client recorded on the referenced applied
record (`past.client` is unconstrained): a dispute issued under a
different client id therefore mutates that other client's balances by
the original transaction's amount. -/
theorem c3_dispute_uses_own_client {α : Type} (A : Arith α)
    (t : Transaction α) (s : EngState α) (past : Transaction α) (amt : α)
    (acc : Account α) (hty : t.tx_type = .Dispute)
    (hpast : s.transactions.valid t.tx = some past)
    (hamt : past.amount = some amt)
    (hacc : s.clients.toFun t.client = some acc)
    (hlock : acc.locked = false) :
    step A t s = some
      ⟨⟨s.transactions.valid,
        updFun s.transactions.disputes t.tx (some amt)⟩,
       ⟨updFun s.clients.toFun t.client
         (some { acc with available := A.sub acc.available amt,
                          held := A.add acc.held amt })⟩⟩ := by
  obtain ⟨ty, cl, tx, amt0⟩ := t
  simp only at hty hpast hacc ⊢
  subst hty
  simp [step, handle_dispute, hpast, hacc, hamt, hlock]

/-- The applied record referenced by the witness dispute: a deposit made
by client 2. -/
def c3wPast : Transaction F32 := ⟨.Deposit, 2, 1, some (F32.ofInt 5)⟩

/-- Client 1's account in the witness state. -/
def c3wAcc1 : Account F32 := ⟨F32.ofInt 9, F32.ofInt 0, F32.ofInt 9, false⟩

/-- Witness state: client 2's deposit is on the applied ledger, and both
clients have unlocked accounts. -/
def c3wState : EngState F32 :=
  ⟨⟨updFun (fun _ => none) 1 (some c3wPast), fun _ => none⟩,
   ⟨fun k =>
      if k = 1 then some c3wAcc1
      else if k = 2 then some ⟨F32.ofInt 5, F32.ofInt 0, F32.ofInt 5, false⟩
      else none⟩⟩

/-- The witness dispute: issued under client 1, referencing client 2's
deposit. -/
def c3wT : Transaction F32 := ⟨.Dispute, 1, 1, none⟩

/-- Witness for `c3_dispute_uses_own_client` at a concrete cross-client
input: client 1 disputes client 2's deposit and client 1's balances move
by client 2's amount. -/
theorem c3_dispute_uses_own_client_witness :
    c3wT.tx_type = .Dispute ∧
    c3wState.transactions.valid c3wT.tx = some c3wPast ∧
    c3wPast.amount = some (F32.ofInt 5) ∧
    c3wPast.client ≠ c3wT.client ∧
    c3wState.clients.toFun c3wT.client = some c3wAcc1 ∧
    c3wAcc1.locked = false ∧
    step f32A c3wT c3wState = some
      ⟨⟨c3wState.transactions.valid,
        updFun c3wState.transactions.disputes c3wT.tx (some (F32.ofInt 5))⟩,
       ⟨updFun c3wState.clients.toFun c3wT.client
         (some { c3wAcc1 with
                 available := f32A.sub c3wAcc1.available (F32.ofInt 5),
                 held := f32A.add c3wAcc1.held (F32.ofInt 5) })⟩⟩ :=
  ⟨rfl, rfl, rfl, by decide, rfl, rfl,
   c3_dispute_uses_own_client f32A c3wT c3wState c3wPast (F32.ofInt 5)
     c3wAcc1 rfl rfl rfl rfl rfl⟩

/-- C4, counterexample to the claim as stated: a Deposit whose amount
field is absent, on empty state, is not silently discarded — the
`t.amount.unwrap()` panics and the whole run aborts (modelled by `none`);
likewise a Withdrawal with absent amount on an existing unlocked
account. -/
theorem c4_counterexample :
    processList f32A [⟨.Deposit, 1, 1, none⟩] initState = none ∧
    processList f32A
      [⟨.Deposit, 1, 1, some (F32.ofInt 5)⟩, ⟨.Withdrawal, 1, 2, none⟩]
      initState = none :=
  ⟨rfl, rfl⟩

/-- C4, amended: a Deposit or Withdrawal whose amount field is absent is
silently discarded (state untouched, nothing recorded) only on the paths
that return before reading the amount: a Deposit on an existing locked
account, and a Withdrawal on an absent or locked account.  On every other
path — Deposit on an absent account or an existing unlocked account,
Withdrawal on an existing unlocked account — the amount `unwrap` panics
and processing aborts. -/
theorem c4_missing_amount {α : Type} (A : Arith α) (t : Transaction α)
    (s : EngState α) (hamt : t.amount = none) :
    (t.tx_type = .Deposit →
      (∀ acc, s.clients.toFun t.client = some acc → acc.locked = true →
        step A t s = some s)
      ∧ (s.clients.toFun t.client = none → step A t s = none)
      ∧ (∀ acc, s.clients.toFun t.client = some acc → acc.locked = false →
        step A t s = none))
    ∧ (t.tx_type = .Withdrawal →
      (s.clients.toFun t.client = none → step A t s = some s)
      ∧ (∀ acc, s.clients.toFun t.client = some acc → acc.locked = true →
        step A t s = some s)
      ∧ (∀ acc, s.clients.toFun t.client = some acc → acc.locked = false →
        step A t s = none)) := by
  obtain ⟨ty, cl, tx, amt0⟩ := t
  simp only at hamt ⊢
  subst hamt
  constructor
  · intro hty
    subst hty
    refine ⟨?_, ?_, ?_⟩
    · intro acc hacc hl
      simp [step, handle_deposit, hacc, hl]
    · intro hacc
      simp [step, handle_deposit, hacc]
    · intro acc hacc hl
      simp [step, handle_deposit, hacc, hl]
  · intro hty
    subst hty
    refine ⟨?_, ?_, ?_⟩
    · intro hacc
      simp [step, handle_withdrawal, hacc]
    · intro acc hacc hl
      simp [step, handle_withdrawal, hacc, hl]
    · intro acc hacc hl
      simp [step, handle_withdrawal, hacc, hl]

/-- A locked account for the witness of `c4_missing_amount`. -/
def c4wAcc : Account F32 := ⟨F32.ofInt 1, F32.ofInt 0, F32.ofInt 1, true⟩

/-- A state holding only that locked account. -/
def c4wState : EngState F32 :=
  ⟨⟨fun _ => none, fun _ => none⟩, ⟨updFun (fun _ => none) 1 (some c4wAcc)⟩⟩

/-- Witness for `c4_missing_amount` at concrete inputs: an amount-less
Deposit on a locked account and an amount-less Withdrawal on an absent
account are silently discarded. -/
theorem c4_missing_amount_witness :
    (⟨.Deposit, 1, 1, none⟩ : Transaction F32).amount = none ∧
    step f32A ⟨.Deposit, 1, 1, none⟩ c4wState = some c4wState ∧
    step f32A ⟨.Withdrawal, 1, 1, none⟩ initState = some initState :=
  ⟨rfl,
   ((c4_missing_amount f32A ⟨.Deposit, 1, 1, none⟩ c4wState rfl).1 rfl).1
     c4wAcc rfl rfl,
   ((c4_missing_amount f32A ⟨.Withdrawal, 1, 1, none⟩ initState rfl).2
     rfl).1 rfl⟩

/-- C5: in every reachable state (any arithmetic instance, any input
sequence processed from the empty initial state), every transaction id
that is a key of the open-dispute ledger is also a key of the
applied-transaction ledger. -/
theorem c5_disputes_subset_valid {α : Type} (A : Arith α)
    (ts : List (Transaction α)) (s : EngState α)
    (hrun : processList A ts initState = some s) (k : Nat)
    (hk : (s.transactions.disputes k).isSome = true) :
    (s.transactions.valid k).isSome = true :=
  processList_disputes_sub_valid hrun k hk

/-- The deposit of the witness run for `c5_disputes_subset_valid`. -/
def c5wT1 : Transaction F32 := ⟨.Deposit, 1, 1, some (F32.ofInt 5)⟩

/-- The state reached by depositing and then disputing transaction 1. -/
def c5wState : EngState F32 :=
  ⟨⟨updFun (fun _ => none) 1 (some c5wT1),
    updFun (fun _ => none) 1 (some (F32.ofInt 5))⟩,
   ⟨updFun (updFun (fun _ => none) 1
        (some ⟨F32.ofInt 5, F32.zero, F32.ofInt 5, false⟩)) 1
      (some ⟨F32.sub (F32.ofInt 5) (F32.ofInt 5),
             F32.add F32.zero (F32.ofInt 5), F32.ofInt 5, false⟩)⟩⟩

/-- Witness for `c5_disputes_subset_valid` at a concrete input. -/
theorem c5_disputes_subset_valid_witness :
    processList f32A [c5wT1, ⟨.Dispute, 1, 1, none⟩] initState
      = some c5wState ∧
    (c5wState.transactions.disputes 1).isSome = true ∧
    (c5wState.transactions.valid 1).isSome = true :=
  ⟨rfl, rfl,
   c5_disputes_subset_valid f32A [c5wT1, ⟨.Dispute, 1, 1, none⟩] c5wState
     rfl 1 rfl⟩

/-- C6: the literal spec scenario.  After Deposit(1,1,5.0);
Withdrawal(1,2,3.0); Withdrawal(1,3,10.0); Dispute(1,1), account 1 is
{available: -3.0, held: 5.0, total: 2.0, locked: false} and the
open-dispute ledger holds 5.0 at key 1; after the further
Chargeback(1,1), account 1 is {available: -3.0, held: 0.0, total: -3.0,
locked: true} and key 1 is gone from the open-dispute ledger; a
subsequent Deposit(1,4,1.0) is a no-op (the resulting state is the very
same state). -/
theorem c6_scenario :
    ((processList f32A
        [⟨.Deposit, 1, 1, some (F32.ofInt 5)⟩,
         ⟨.Withdrawal, 1, 2, some (F32.ofInt 3)⟩,
         ⟨.Withdrawal, 1, 3, some (F32.ofInt 10)⟩,
         ⟨.Dispute, 1, 1, none⟩] initState).map
        fun s => s.clients.toFun 1)
      = some (some ⟨F32.ofInt (-3), F32.ofInt 5, F32.ofInt 2, false⟩)
    ∧ ((processList f32A
        [⟨.Deposit, 1, 1, some (F32.ofInt 5)⟩,
         ⟨.Withdrawal, 1, 2, some (F32.ofInt 3)⟩,
         ⟨.Withdrawal, 1, 3, some (F32.ofInt 10)⟩,
         ⟨.Dispute, 1, 1, none⟩] initState).map
        fun s => s.transactions.disputes 1)
      = some (some (F32.ofInt 5))
    ∧ ((processList f32A
        [⟨.Deposit, 1, 1, some (F32.ofInt 5)⟩,
         ⟨.Withdrawal, 1, 2, some (F32.ofInt 3)⟩,
         ⟨.Withdrawal, 1, 3, some (F32.ofInt 10)⟩,
         ⟨.Dispute, 1, 1, none⟩,
         ⟨.Chargeback, 1, 1, none⟩] initState).map
        fun s => s.clients.toFun 1)
      = some (some ⟨F32.ofInt (-3), F32.ofInt 0, F32.ofInt (-3), true⟩)
    ∧ ((processList f32A
        [⟨.Deposit, 1, 1, some (F32.ofInt 5)⟩,
         ⟨.Withdrawal, 1, 2, some (F32.ofInt 3)⟩,
         ⟨.Withdrawal, 1, 3, some (F32.ofInt 10)⟩,
         ⟨.Dispute, 1, 1, none⟩,
         ⟨.Chargeback, 1, 1, none⟩] initState).map
        fun s => s.transactions.disputes 1)
      = some none
    ∧ processList f32A
        [⟨.Deposit, 1, 1, some (F32.ofInt 5)⟩,
         ⟨.Withdrawal, 1, 2, some (F32.ofInt 3)⟩,
         ⟨.Withdrawal, 1, 3, some (F32.ofInt 10)⟩,
         ⟨.Dispute, 1, 1, none⟩,
         ⟨.Chargeback, 1, 1, none⟩,
         ⟨.Deposit, 1, 4, some (F32.ofInt 1)⟩] initState
      = processList f32A
        [⟨.Deposit, 1, 1, some (F32.ofInt 5)⟩,
         ⟨.Withdrawal, 1, 2, some (F32.ofInt 3)⟩,
         ⟨.Withdrawal, 1, 3, some (F32.ofInt 10)⟩,
         ⟨.Dispute, 1, 1, none⟩,
         ⟨.Chargeback, 1, 1, none⟩] initState :=
  ⟨by decide, by decide, by decide, by decide, rfl⟩

/-- C7: a Withdrawal with amount present on an existing unlocked account.
When the `available >= amount` test fails (for the exact-arithmetic
instance this is exactly `available < amount`, third conjunct), the state
is returned untouched — every account and both ledgers unchanged, so in
particular the withdrawal's id is not inserted into the
applied-transaction ledger.  When it succeeds, the effect is exactly
`available -= amount; total -= amount` on that one account plus insertion
of the record into the applied-transaction ledger keyed by its id. -/
theorem c7_withdrawal_cases {α : Type} (A : Arith α) (t : Transaction α)
    (s : EngState α) (amt : α) (acc : Account α)
    (hty : t.tx_type = .Withdrawal) (hamt : t.amount = some amt)
    (hacc : s.clients.toFun t.client = some acc)
    (hlock : acc.locked = false) :
    (A.ge acc.available amt = false → step A t s = some s)
    ∧ (A.ge acc.available amt = true → step A t s = some
        ⟨⟨updFun s.transactions.valid t.tx (some t),
          s.transactions.disputes⟩,
         ⟨updFun s.clients.toFun t.client
           (some { acc with available := A.sub acc.available amt,
                            total := A.sub acc.total amt })⟩⟩)
    ∧ (∀ x y : ℚ, ratA.ge x y = false ↔ x < y) := by
  obtain ⟨ty, cl, tx, amt0⟩ := t
  simp only at hty hamt hacc ⊢
  subst hty
  subst hamt
  refine ⟨?_, ?_, ?_⟩
  · intro hge
    simp [step, handle_withdrawal, hacc, hlock, hge]
  · intro hge
    simp [step, handle_withdrawal, hacc, hlock, hge]
  · intro x y
    simp only [ratA, decide_eq_false_iff_not, not_le]

/-- The account of the witness run for `c7_withdrawal_cases`. -/
def c7wAcc : Account F32 := ⟨F32.ofInt 2, F32.ofInt 0, F32.ofInt 2, false⟩

/-- A state holding that account with an applied deposit. -/
def c7wState : EngState F32 :=
  ⟨⟨updFun (fun _ => none) 1 (some ⟨.Deposit, 1, 1, some (F32.ofInt 2)⟩),
    fun _ => none⟩,
   ⟨updFun (fun _ => none) 1 (some c7wAcc)⟩⟩

/-- The insufficient-funds witness withdrawal (10.0 against 2.0). -/
def c7wT : Transaction F32 := ⟨.Withdrawal, 1, 3, some (F32.ofInt 10)⟩

/-- Witness for `c7_withdrawal_cases` at a concrete input. -/
theorem c7_withdrawal_cases_witness :
    c7wT.tx_type = .Withdrawal ∧ c7wT.amount = some (F32.ofInt 10) ∧
    c7wState.clients.toFun c7wT.client = some c7wAcc ∧
    c7wAcc.locked = false ∧
    f32A.ge c7wAcc.available (F32.ofInt 10) = false ∧
    step f32A c7wT c7wState = some c7wState :=
  ⟨rfl, rfl, rfl, rfl, by decide,
   (c7_withdrawal_cases f32A c7wT c7wState (F32.ofInt 10) c7wAcc rfl rfl
     rfl rfl).1 (by decide)⟩

/-- C8: an accepted Chargeback (id found in the open-dispute ledger,
account of the record's client field exists and is unlocked) leaves
`available` untouched, performs `held -= amount; total -= amount` with
exactly the open-dispute entry's amount, sets `locked = true`, and
removes that open-dispute entry; the resulting state is pinned exactly,
so the applied-transaction ledger, every other open-dispute entry
(`updFun` changes one key) and every other account (`updFun` changes one
client) are untouched. -/
theorem c8_chargeback_effect {α : Type} (A : Arith α) (t : Transaction α)
    (s : EngState α) (amt : α) (acc : Account α)
    (hty : t.tx_type = .Chargeback)
    (hdisp : s.transactions.disputes t.tx = some amt)
    (hacc : s.clients.toFun t.client = some acc)
    (hlock : acc.locked = false) :
    step A t s = some
      ⟨⟨s.transactions.valid, updFun s.transactions.disputes t.tx none⟩,
       ⟨updFun s.clients.toFun t.client
         (some { acc with held := A.sub acc.held amt,
                          total := A.sub acc.total amt,
                          locked := true })⟩⟩ := by
  obtain ⟨ty, cl, tx, amt0⟩ := t
  simp only at hty hdisp hacc ⊢
  subst hty
  simp [step, handle_chargeback, hdisp, hacc, hlock]

/-- The disputed account of the witness for `c8_chargeback_effect`. -/
def c8wAcc : Account F32 := ⟨F32.ofInt (-3), F32.ofInt 5, F32.ofInt 2, false⟩

/-- A state with an open dispute of 5.0 on transaction 1. -/
def c8wState : EngState F32 :=
  ⟨⟨updFun (fun _ => none) 1 (some ⟨.Deposit, 1, 1, some (F32.ofInt 5)⟩),
    updFun (fun _ => none) 1 (some (F32.ofInt 5))⟩,
   ⟨updFun (fun _ => none) 1 (some c8wAcc)⟩⟩

/-- The witness chargeback record. -/
def c8wT : Transaction F32 := ⟨.Chargeback, 1, 1, none⟩

/-- Witness for `c8_chargeback_effect` at a concrete input. -/
theorem c8_chargeback_effect_witness :
    c8wT.tx_type = .Chargeback ∧
    c8wState.transactions.disputes c8wT.tx = some (F32.ofInt 5) ∧
    c8wState.clients.toFun c8wT.client = some c8wAcc ∧
    c8wAcc.locked = false ∧
    step f32A c8wT c8wState = some
      ⟨⟨c8wState.transactions.valid,
        updFun c8wState.transactions.disputes c8wT.tx none⟩,
       ⟨updFun c8wState.clients.toFun c8wT.client
         (some { c8wAcc with
                 held := f32A.sub c8wAcc.held (F32.ofInt 5),
                 total := f32A.sub c8wAcc.total (F32.ofInt 5),
                 locked := true })⟩⟩ :=
  ⟨rfl, rfl, rfl, rfl,
   c8_chargeback_effect f32A c8wT c8wState (F32.ofInt 5) c8wAcc rfl rfl rfl
     rfl⟩

/-- C9: a second Dispute on a transaction id whose dispute is already
open (hypothesis `hopen`), processed before any Resolve or Chargeback,
re-executes the mutation — available decreases and held increases by the
applied record's amount a second time — and overwrites the single
open-dispute entry for that id with that amount (`updFun` at the one key
`t.tx`, so at most one entry per id exists at any time, the map holding
one value per key). -/
theorem c9_redispute_double_count {α : Type} (A : Arith α)
    (t : Transaction α) (s : EngState α) (past : Transaction α)
    (amt d0 : α) (acc : Account α) (hty : t.tx_type = .Dispute)
    (hpast : s.transactions.valid t.tx = some past)
    (hamt : past.amount = some amt)
    (hopen : s.transactions.disputes t.tx = some d0)
    (hacc : s.clients.toFun t.client = some acc)
    (hlock : acc.locked = false) :
    step A t s = some
      ⟨⟨s.transactions.valid,
        updFun s.transactions.disputes t.tx (some amt)⟩,
       ⟨updFun s.clients.toFun t.client
         (some { acc with available := A.sub acc.available amt,
                          held := A.add acc.held amt })⟩⟩ := by
  obtain ⟨ty, cl, tx, amt0⟩ := t
  simp only at hty hpast hacc ⊢
  subst hty
  simp [step, handle_dispute, hpast, hacc, hamt, hlock]

/-- The applied deposit re-disputed in the witness of
`c9_redispute_double_count`. -/
def c9wPast : Transaction F32 := ⟨.Deposit, 1, 1, some (F32.ofInt 5)⟩

/-- The account as left by the first dispute (5.0 already held). -/
def c9wAcc : Account F32 := ⟨F32.ofInt 0, F32.ofInt 5, F32.ofInt 5, false⟩

/-- The state after the first dispute of transaction 1. -/
def c9wState : EngState F32 :=
  ⟨⟨updFun (fun _ => none) 1 (some c9wPast),
    updFun (fun _ => none) 1 (some (F32.ofInt 5))⟩,
   ⟨updFun (fun _ => none) 1 (some c9wAcc)⟩⟩

/-- The second dispute of the same transaction id. -/
def c9wT : Transaction F32 := ⟨.Dispute, 1, 1, none⟩

/-- Witness for `c9_redispute_double_count` at a concrete input: the
second dispute pushes held from 5.0 to 10.0 although only 5.0 was ever
deposited. -/
theorem c9_redispute_double_count_witness :
    c9wT.tx_type = .Dispute ∧
    c9wState.transactions.valid c9wT.tx = some c9wPast ∧
    c9wPast.amount = some (F32.ofInt 5) ∧
    c9wState.transactions.disputes c9wT.tx = some (F32.ofInt 5) ∧
    c9wState.clients.toFun c9wT.client = some c9wAcc ∧
    c9wAcc.locked = false ∧
    step f32A c9wT c9wState = some
      ⟨⟨c9wState.transactions.valid,
        updFun c9wState.transactions.disputes c9wT.tx
          (some (F32.ofInt 5))⟩,
       ⟨updFun c9wState.clients.toFun c9wT.client
         (some { c9wAcc with
                 available := f32A.sub c9wAcc.available (F32.ofInt 5),
                 held := f32A.add c9wAcc.held (F32.ofInt 5) })⟩⟩ ∧
    f32A.add c9wAcc.held (F32.ofInt 5) = F32.ofInt 10 :=
  ⟨rfl, rfl, rfl, rfl, rfl, rfl,
   c9_redispute_double_count f32A c9wT c9wState c9wPast (F32.ofInt 5)
     (F32.ofInt 5) c9wAcc rfl rfl rfl rfl rfl rfl,
   by decide⟩

/-- C10: a Resolve or Chargeback whose id is in the open-dispute ledger
but whose client field names an absent or locked account is discarded
with the state returned untouched — in particular the open-dispute entry
is not removed (first part).  Consequently, once an account is locked, an
open-dispute entry stays in the ledger along any further processed
suffix in which every Resolve/Chargeback for that id names the locked
client (second part; a Resolve or Chargeback naming a different,
unlocked client could still consume the entry, which is the cross-client
gap of C3). -/
theorem c10_locked_blocks_resolution {α : Type} (A : Arith α) :
    (∀ (t : Transaction α) (s : EngState α) (d : α),
      (t.tx_type = .Resolve ∨ t.tx_type = .Chargeback) →
      s.transactions.disputes t.tx = some d →
      (s.clients.toFun t.client = none ∨
        ∃ acc, s.clients.toFun t.client = some acc ∧ acc.locked = true) →
      step A t s = some s)
    ∧ (∀ (s : EngState α) (c k : Nat) (acc : Account α)
         (ts : List (Transaction α)) (s' : EngState α),
        s.clients.toFun c = some acc → acc.locked = true →
        (s.transactions.disputes k).isSome = true →
        (∀ t ∈ ts, (t.tx_type = .Resolve ∨ t.tx_type = .Chargeback) →
          t.tx = k → t.client = c) →
        processList A ts s = some s' →
        (s'.transactions.disputes k).isSome = true) := by
  constructor
  · intro t s d hty hdisp hcl
    obtain ⟨ty, cl, tx, amt⟩ := t
    simp only at hty hdisp hcl
    rcases hcl with hnone | ⟨acc, hacc, hl⟩
    · rcases hty with h | h <;> subst h <;>
        simp [step, handle_resolve, handle_chargeback, hdisp, hnone]
    · rcases hty with h | h <;> subst h <;>
        simp [step, handle_resolve, handle_chargeback, hdisp, hacc, hl]
  · intro s c k acc ts s' hacc hlock hk hts hrun
    induction ts generalizing s with
    | nil => cases hrun; exact hk
    | cons t ts ih =>
      simp only [processList, Option.bind_eq_some] at hrun
      obtain ⟨s1, hstep, hrest⟩ := hrun
      have hacc1 : s1.clients.toFun c = some acc :=
        step_locked_frame hstep hacc hlock
      have hk1 : (s1.transactions.disputes k).isSome = true := by
        by_cases hcase :
            (t.tx_type = .Resolve ∨ t.tx_type = .Chargeback) ∧ t.tx = k
        · obtain ⟨hty, htx⟩ := hcase
          have hclc : t.client = c :=
            hts t (List.mem_cons_self t ts) hty htx
          have hs1 : s1 = s :=
            step_locked_eq (by rw [hclc]; exact hacc) hlock hstep
          rw [hs1]; exact hk
        · exact step_disputes_isSome hstep hk hcase
      exact ih s1 hacc1 hk1
        (fun t2 ht2 => hts t2 (List.mem_cons_of_mem t ht2))
        (by simpa using hrest)

/-- The locked account of the witness for
`c10_locked_blocks_resolution`. -/
def c10wAcc : Account F32 := ⟨F32.ofInt 0, F32.ofInt 5, F32.ofInt 5, true⟩

/-- A state with an open dispute at key 1 and the locked account as the
only account. -/
def c10wState : EngState F32 :=
  ⟨⟨updFun (fun _ => none) 1 (some ⟨.Deposit, 1, 1, some (F32.ofInt 5)⟩),
    updFun (fun _ => none) 1 (some (F32.ofInt 5))⟩,
   ⟨updFun (fun _ => none) 1 (some c10wAcc)⟩⟩

/-- Witness for `c10_locked_blocks_resolution` at concrete inputs: a
Resolve and then a Chargeback for the open dispute, both naming the
locked client, leave the state untouched and the entry still present. -/
theorem c10_locked_blocks_resolution_witness :
    c10wState.transactions.disputes 1 = some (F32.ofInt 5) ∧
    step f32A ⟨.Resolve, 1, 1, none⟩ c10wState = some c10wState ∧
    processList f32A [⟨.Resolve, 1, 1, none⟩, ⟨.Chargeback, 1, 1, none⟩]
      c10wState = some c10wState ∧
    (c10wState.transactions.disputes 1).isSome = true :=
  ⟨rfl,
   (c10_locked_blocks_resolution f32A).1 ⟨.Resolve, 1, 1, none⟩ c10wState
     (F32.ofInt 5) (Or.inl rfl) rfl (Or.inr ⟨c10wAcc, rfl, rfl⟩),
   rfl,
   (c10_locked_blocks_resolution f32A).2 c10wState 1 1 c10wAcc
     [⟨.Resolve, 1, 1, none⟩, ⟨.Chargeback, 1, 1, none⟩] c10wState rfl rfl
     rfl (by decide) rfl⟩

end Engine
